import Mathlib

/-!
Shallow embedding of `markdown2html.py`, a line-by-line Markdown to HTML
converter.  Strings are modelled as `List Char`; the few regular expressions
of the source (`^(#\x7b1,6\x7d) (.*)`, `^- (.*)`, `^\* (.*)`, and the four
lazy `re.sub` patterns) are modelled by explicit scanners; Python's
`hashlib.md5` is implemented in full over `Nat` arithmetic modulo 2^32.
-/

namespace Md2Html

/-- ASCII whitespace as recognised by Python's `str.strip` / `str.rstrip`
on ASCII text: space, tab, newline, carriage return, vertical tab, form
feed. -/
def isPyWS (c : Char) : Bool :=
  c = ' ' || c = '\t' || c = '\n' || c = '\r' || c = '\x0B' || c = '\x0C'

/-- Python `line.rstrip()`: remove trailing whitespace. -/
def rstrip (s : List Char) : List Char :=
  (s.reverse.dropWhile isPyWS).reverse

/- ### MD5 (hashlib.md5(...).hexdigest()) -/

/-- The 64 round constants of MD5 (floor(abs(sin(i+1)) * 2^32)). -/
def md5K : List Nat :=
  [3614090360, 3905402710, 606105819, 3250441966, 4118548399, 1200080426,
   2821735955, 4249261313, 1770035416, 2336552879, 4294925233, 2304563134,
   1804603682, 4254626195, 2792965006, 1236535329, 4129170786, 3225465664,
   643717713, 3921069994, 3593408605, 38016083, 3634488961, 3889429448,
   568446438, 3275163606, 4107603335, 1163531501, 2850285829, 4243563512,
   1735328473, 2368359562, 4294588738, 2272392833, 1839030562, 4259657740,
   2763975236, 1272893353, 4139469664, 3200236656, 681279174, 3936430074,
   3572445317, 76029189, 3654602809, 3873151461, 530742520, 3299628645,
   4096336452, 1126891415, 2878612391, 4237533241, 1700485571, 2399980690,
   4293915773, 2240044497, 1873313359, 4264355552, 2734768916, 1309151649,
   4149444226, 3174756917, 718787259, 3951481745]

/-- The per-round left-rotation amounts of MD5. -/
def md5S : List Nat :=
  [7, 12, 17, 22, 7, 12, 17, 22, 7, 12, 17, 22, 7, 12, 17, 22,
   5, 9, 14, 20, 5, 9, 14, 20, 5, 9, 14, 20, 5, 9, 14, 20,
   4, 11, 16, 23, 4, 11, 16, 23, 4, 11, 16, 23, 4, 11, 16, 23,
   6, 10, 15, 21, 6, 10, 15, 21, 6, 10, 15, 21, 6, 10, 15, 21]

/-- Left rotation of a 32-bit word (held as a `Nat` below 2^32). -/
def rotl32 (x s : Nat) : Nat :=
  ((x <<< s) % 4294967296) ||| (x >>> (32 - s))

/-- The MD5 mixing function for round `i`. -/
def md5F (i b c d : Nat) : Nat :=
  if i < 16 then (b &&& c) ||| ((b ^^^ 4294967295) &&& d)
  else if i < 32 then (d &&& b) ||| ((d ^^^ 4294967295) &&& c)
  else if i < 48 then b ^^^ c ^^^ d
  else c ^^^ (b ||| (d ^^^ 4294967295))

/-- The message-word index used in round `i`. -/
def md5G (i : Nat) : Nat :=
  if i < 16 then i
  else if i < 32 then (5 * i + 1) % 16
  else if i < 48 then (3 * i + 5) % 16
  else (7 * i) % 16

/-- One MD5 round on the state `(a, b, c, d)`; `M g` is message word `g`. -/
def md5Round (M : Nat → Nat) (st : Nat × Nat × Nat × Nat) (i : Nat) :
    Nat × Nat × Nat × Nat :=
  let (a, b, c, d) := st
  let f := (md5F i b c d + a + md5K.getD i 0 + M (md5G i)) % 4294967296
  (d, (b + rotl32 f (md5S.getD i 0)) % 4294967296, b, c)

/-- Process one 64-byte chunk, adding the mixed state back into the input
state, all modulo 2^32. -/
def md5ProcessChunk (st : Nat × Nat × Nat × Nat) (chunk : List Nat) :
    Nat × Nat × Nat × Nat :=
  let M : Nat → Nat := fun g =>
    chunk.getD (4 * g) 0 + 256 * chunk.getD (4 * g + 1) 0 +
      65536 * chunk.getD (4 * g + 2) 0 + 16777216 * chunk.getD (4 * g + 3) 0
  let (a, b, c, d) := (List.range 64).foldl (md5Round M) st
  let (a0, b0, c0, d0) := st
  ((a + a0) % 4294967296, (b + b0) % 4294967296,
   (c + c0) % 4294967296, (d + d0) % 4294967296)

/-- Split a byte list into `k` chunks of 64 bytes each. -/
def chunksOf64 : Nat → List Nat → List (List Nat)
  | 0, _ => []
  | k + 1, l => l.take 64 :: chunksOf64 k (l.drop 64)

/-- MD5 padding: a 0x80 byte, zeros to 56 mod 64, then the bit length as
eight little-endian bytes. -/
def md5Pad (bytes : List Nat) : List Nat :=
  let len := bytes.length
  let z := (120 - (len + 1) % 64) % 64
  let bits := (8 * len) % 18446744073709551616
  bytes ++ [128] ++ List.replicate z 0 ++
    [bits % 256, bits / 256 % 256, bits / 65536 % 256, bits / 16777216 % 256,
     bits / 4294967296 % 256, bits / 1099511627776 % 256,
     bits / 281474976710656 % 256, bits / 72057594037927936 % 256]

/-- The final MD5 state over a byte string. -/
def md5State (bytes : List Nat) : Nat × Nat × Nat × Nat :=
  let padded := md5Pad bytes
  (chunksOf64 (padded.length / 64) padded).foldl md5ProcessChunk
    (1732584193, 4023233417, 2562383102, 271733878)

/-- Lowercase hexadecimal digit. -/
def hexDigit (n : Nat) : Char :=
  if n < 10 then Char.ofNat (48 + n) else Char.ofNat (87 + n)

/-- Two lowercase hex characters for one byte. -/
def byteHex (b : Nat) : List Char :=
  [hexDigit (b / 16 % 16), hexDigit (b % 16)]

/-- Eight lowercase hex characters for one 32-bit word, little-endian
byte order. -/
def wordHexLE (w : Nat) : List Char :=
  byteHex (w % 256) ++ byteHex (w / 256 % 256) ++
    byteHex (w / 65536 % 256) ++ byteHex (w / 16777216 % 256)

/-- UTF-8 encoding of one character (Python's `str.encode()`). -/
def utf8Bytes (c : Char) : List Nat :=
  let n := c.toNat
  if n < 128 then [n]
  else if n < 2048 then [192 + n / 64, 128 + n % 64]
  else if n < 65536 then [224 + n / 4096, 128 + n / 64 % 64, 128 + n % 64]
  else [240 + n / 262144, 128 + n / 4096 % 64, 128 + n / 64 % 64,
        128 + n % 64]

/-- `convert_to_md5` of the source: the lowercase hexadecimal MD5 digest of
the UTF-8 bytes of a text (`hashlib.md5(text.encode()).hexdigest()`). -/
def convert_to_md5 (text : List Char) : List Char :=
  let (a, b, c, d) := md5State (text.foldr (fun ch acc => utf8Bytes ch ++ acc) [])
  wordHexLE a ++ wordHexLE b ++ wordHexLE c ++ wordHexLE d

/-- `remove_c_from_text` of the source:
`text.replace('c', '').replace('C', '')`. -/
def remove_c_from_text (text : List Char) : List Char :=
  (text.filter (fun ch => ch ≠ 'c')).filter (fun ch => ch ≠ 'C')

/- ### Lazy regular-expression substitution (re.sub with a non-greedy group)

All four inline patterns of the source have the shape
`od (.*?) cd` for two-character delimiters: the regex engine looks for the
leftmost occurrence of the opening delimiter from which the closing
delimiter is reachable without crossing a newline (`.` does not match a
newline), takes the shortest such span as the capture, replaces, and
resumes scanning after the replaced segment. -/

/-- Search for the closing delimiter `cd`: returns the (shortest) capture
before the first occurrence of `cd` and the remainder after it, or `none`
when `cd` is not reachable without crossing a newline. -/
def findLazyClose (cd : List Char) : List Char → Option (List Char × List Char)
  | [] => none
  | c :: rest =>
    if cd.isPrefixOf (c :: rest) then some ([], (c :: rest).drop cd.length)
    else if c = '\n' then none
    else
      match findLazyClose cd rest with
      | some (p, r) => some (c :: p, r)
      | none => none

/-- The substitution scanner: at each position, if the opening delimiter
`o :: od` matches and a close is reachable, replace the captured span with
`repl` of it and continue after the match; otherwise copy one character.
`fuel` bounds the recursion; any `fuel` at least the length of the input
yields the fixpoint behaviour (the scan strictly consumes input). -/
def scanSub (o : Char) (od cd : List Char) (repl : List Char → List Char) :
    Nat → List Char → List Char
  | _, [] => []
  | 0, s => s
  | fuel + 1, c :: rest =>
    if (o :: od).isPrefixOf (c :: rest) then
      match findLazyClose cd ((c :: rest).drop (o :: od).length) with
      | some (p, r) => repl p ++ scanSub o od cd repl fuel r
      | none => c :: scanSub o od cd repl fuel rest
    else c :: scanSub o od cd repl fuel rest

/-- `re.sub` for a pattern `od (.*?) cd` with opening delimiter `o :: od`. -/
def reSubLazy (o : Char) (od cd : List Char) (repl : List Char → List Char)
    (s : List Char) : List Char :=
  scanSub o od cd repl s.length s

/-- Does the pattern `od (.*?) cd` (opening delimiter `o :: od`) match
anywhere in the string? -/
def hasMatch (o : Char) (od cd : List Char) : List Char → Bool
  | [] => false
  | c :: rest =>
    ((o :: od).isPrefixOf (c :: rest) &&
      (findLazyClose cd ((c :: rest).drop (o :: od).length)).isSome) ||
    hasMatch o od cd rest

/- ### The Line Translator (process_markdown_line) -/

/-- Bold: `re.sub` of the two-star pattern with replacement `<b>\1</b>`. -/
def subBold (s : List Char) : List Char :=
  reSubLazy '*' ['*'] ['*', '*'] (fun p => "<b>".data ++ p ++ "</b>".data) s

/-- Emphasis: `re.sub` of the two-underscore pattern with replacement
`<em>\1</em>`. -/
def subEm (s : List Char) : List Char :=
  reSubLazy '_' ['_'] ['_', '_'] (fun p => "<em>".data ++ p ++ "</em>".data) s

/-- MD5: `re.sub` of the double-square-bracket pattern, replacing the
capture with `convert_to_md5` of it. -/
def subMd5 (s : List Char) : List Char :=
  reSubLazy '[' ['['] [']', ']'] convert_to_md5 s

/-- Character removal: `re.sub` of the double-parenthesis pattern,
replacing the capture with `remove_c_from_text` of it. -/
def subParens (s : List Char) : List Char :=
  reSubLazy '(' ['('] [')', ')'] remove_c_from_text s

/-- The four sequential `re.sub` calls of `process_markdown_line`, in
source order: bold, emphasis, MD5, character removal. -/
def applySubs (line : List Char) : List Char :=
  subParens (subMd5 (subEm (subBold line)))

/-- The heading regex `re.match` with one to six hashes then a space:
returns the heading level (the length of the leading hash run, between 1
and 6, with a space right after it) and the captured content (the rest of
the line up to a newline, `.` being newline-free). -/
def headingMatch (line : List Char) : Option (Nat × List Char) :=
  let k := (line.takeWhile (fun c => c == '#')).length
  if 1 ≤ k ∧ k ≤ 6 ∧ (line.drop k).head? = some ' '
  then some (k, (line.drop (k + 1)).takeWhile (fun c => c ≠ '\n'))
  else none

/-- A Python return value of `process_markdown_line`: either a bare string
(the heading branch and the final fall-through branch) or a pair of a
fragment and a tag (the list branches and the blank-line branch). -/
inductive PyRet where
  | str : List Char → PyRet
  | pair : List Char → List Char → PyRet
  deriving DecidableEq

/-- The substitution part of `process_markdown_line`: apply the four
substitutions; a blank (whitespace-only) result returns the pair of the
empty fragment and the tag "newline", any other result is returned as a
bare string. -/
def substPart (line : List Char) : PyRet :=
  let l := applySubs line
  if l.all isPyWS then .pair [] "newline".data else .str l

/-- `process_markdown_line` of the source: heading match returns the bare
heading string; a line starting with a dash-space returns the list-item
pair tagged "ul"; a line starting with a star-space returns the list-item
pair tagged "ol"; anything else goes through the four substitutions. -/
def process_markdown_line (line : List Char) : PyRet :=
  match headingMatch line with
  | some (n, content) =>
    .str ("<h".data ++ (Nat.repr n).data ++ ">".data ++ content ++
          "</h".data ++ (Nat.repr n).data ++ ">".data)
  | none =>
    if "- ".data.isPrefixOf line then
      .pair ("<li>".data ++ line.drop 2 ++ "</li>".data) "ul".data
    else if "* ".data.isPrefixOf line then
      .pair ("<li>".data ++ line.drop 2 ++ "</li>".data) "ol".data
    else substPart line

/- ### The Block Accumulator (the per-line loop of main) -/

/-- Python tuple unpacking `html_line, tag_type = process_markdown_line(line)`:
a pair unpacks componentwise; a bare string unpacks only when it has
exactly two characters (each becoming a one-character string), any other
length raises ValueError, modelled as `none`. -/
def unpack : PyRet → Option (List Char × List Char)
  | .pair a b => some (a, b)
  | .str s =>
    match s with
    | [a, b] => some ([a], [b])
    | _ => none

/-- The f-string closing tag built from the open list type. -/
def closeTag (t : List Char) : List Char :=
  "</".data ++ t ++ ">".data

/-- The `if list_type:` close step: when the open list type is truthy,
emit its closing tag and clear it; otherwise emit nothing and keep it. -/
def closeEmit : Option (List Char) → List (List Char) × Option (List Char)
  | none => ([], none)
  | some t => if t.isEmpty then ([], some t) else ([closeTag t], none)

/-- One iteration of the accumulator loop on an unpacked (fragment, tag)
pair: the lines appended to `html_lines` and the new `list_type`.  The
"ul" and "ol" branches open (and if needed switch) the block but append
no fragment; the "newline" branch closes any open block and emits a
paragraph break; every other tag closes any open block and appends the
fragment. -/
def stepEmit (lt : Option (List Char)) (h t : List Char) :
    List (List Char) × Option (List Char) :=
  if t = "ul".data then
    if lt ≠ some "ul".data then ((closeEmit lt).1 ++ ["<ul>".data], some "ul".data)
    else ([], some "ul".data)
  else if t = "ol".data then
    if lt ≠ some "ol".data then ((closeEmit lt).1 ++ ["<ol>".data], some "ol".data)
    else ([], some "ol".data)
  else if t = "newline".data then
    ((closeEmit lt).1 ++ ["<p>".data], (closeEmit lt).2)
  else
    ((closeEmit lt).1 ++ [h], (closeEmit lt).2)

/-- The per-line loop of `main`, returning the lines it appends from the
given `list_type` onwards, with the finalization close of a still-open
block; `none` models the ValueError raised by unpacking a bare string
whose length is not two. -/
def runLoop (lt : Option (List Char)) : List (List Char) → Option (List (List Char))
  | [] => some (closeEmit lt).1
  | l :: ls =>
    match unpack (process_markdown_line (rstrip l)) with
    | none => none
    | some (h, t) =>
      match runLoop (stepEmit lt h t).2 ls with
      | some out => some ((stepEmit lt h t).1 ++ out)
      | none => none

/-- The whole conversion of `main` on the input lines: the sequence of
output HTML lines, or `none` when the run raises. -/
def mainOutput (lines : List (List Char)) : Option (List (List Char)) :=
  runLoop none lines

/-- Well-bracketing checker over an output line sequence, tracking the
currently open list block: an opening tag requires no open block, a
closing tag requires the matching block to be open, a list-item line
(starting with "<li>") is allowed anywhere, and any other line requires
no open block; at the end no block may remain open. -/
def checkBrack : Option (List Char) → List (List Char) → Bool
  | none, [] => true
  | some _, [] => false
  | b, l :: ls =>
    if l = "<ul>".data then decide (b = none) && checkBrack (some "ul".data) ls
    else if l = "</ul>".data then
      decide (b = some "ul".data) && checkBrack none ls
    else if l = "<ol>".data then decide (b = none) && checkBrack (some "ol".data) ls
    else if l = "</ol>".data then
      decide (b = some "ol".data) && checkBrack none ls
    else if "<li>".data.isPrefixOf l then checkBrack b ls
    else decide (b = none) && checkBrack b ls

/-- A line with no Markdown token: no heading match, no list marker, no
lazy match of any of the four substitution patterns, and not
whitespace-only. -/
def tokenFree (line : List Char) : Bool :=
  (headingMatch line).isNone
  && !("- ".data.isPrefixOf line)
  && !("* ".data.isPrefixOf line)
  && !(hasMatch '*' ['*'] ['*', '*'] line)
  && !(hasMatch '_' ['_'] ['_', '_'] line)
  && !(hasMatch '[' ['['] [']', ']'] line)
  && !(hasMatch '(' ['('] [')', ')'] line)
  && !(line.all isPyWS)

/- ### Helper lemmas about the scanners -/

theorem isPrefixOf_len {l s : List Char} (h : l.isPrefixOf s = true) :
    l.length ≤ s.length := by
  induction l generalizing s with
  | nil => simp
  | cons a as ih =>
    cases s with
    | nil => simp [List.isPrefixOf] at h
    | cons b bs =>
      simp only [List.isPrefixOf, Bool.and_eq_true] at h
      simpa using ih h.2

theorem isPrefixOf_self_append (l t : List Char) :
    l.isPrefixOf (l ++ t) = true := by
  induction l with
  | nil => simp [List.isPrefixOf]
  | cons a as ih => simp [List.isPrefixOf, ih]

theorem isPrefixOf_cons_ne {a c : Char} {l t : List Char} (h : c ≠ a) :
    (c :: l).isPrefixOf (a :: t) = false := by
  simp [List.isPrefixOf, h]

theorem findLazyClose_len (cd : List Char) :
    ∀ s p r, findLazyClose cd s = some (p, r) →
      p.length + cd.length + r.length = s.length := by
  intro s
  induction s with
  | nil => intro p r h; simp [findLazyClose] at h
  | cons c rest ih =>
    intro p r h
    by_cases hpre : cd.isPrefixOf (c :: rest) = true
    · rw [findLazyClose, if_pos hpre] at h
      have hlen := isPrefixOf_len hpre
      simp only [Option.some.injEq, Prod.mk.injEq] at h
      obtain ⟨hp, hr⟩ := h
      subst hp; subst hr
      simp only [List.length_nil, List.length_drop, List.length_cons] at *
      omega
    · rw [findLazyClose, if_neg hpre] at h
      by_cases hnl : c = '\n'
      · rw [if_pos hnl] at h; simp at h
      · rw [if_neg hnl] at h
        rcases h2 : findLazyClose cd rest with _ | ⟨p', r'⟩
        · rw [h2] at h; simp at h
        · rw [h2] at h
          simp only [Option.some.injEq, Prod.mk.injEq] at h
          obtain ⟨hp, hr⟩ := h
          subst hp; subst hr
          have := ih p' r' h2
          simp only [List.length_cons]
          omega

theorem findLazyClose_rest_len {cd s : List Char} {p r : List Char}
    (h : findLazyClose cd s = some (p, r)) : r.length ≤ s.length := by
  have := findLazyClose_len cd s p r h
  omega

theorem scanSub_fuelIrrel (o : Char) (od cd : List Char)
    (repl : List Char → List Char) :
    ∀ f1 f2 s, s.length ≤ f1 → s.length ≤ f2 →
      scanSub o od cd repl f1 s = scanSub o od cd repl f2 s := by
  intro f1
  induction f1 with
  | zero =>
    intro f2 s h1 _
    have : s = [] := List.length_eq_zero.mp (Nat.le_zero.mp h1)
    subst this
    cases f2 <;> simp [scanSub]
  | succ f1 ih =>
    intro f2 s h1 h2
    cases s with
    | nil => cases f2 <;> simp [scanSub]
    | cons c rest =>
      cases f2 with
      | zero => simp at h2
      | succ f2 =>
        simp only [List.length_cons] at h1 h2
        by_cases hpre : (o :: od).isPrefixOf (c :: rest) = true
        · rcases hsplit : findLazyClose cd ((c :: rest).drop (o :: od).length)
            with _ | ⟨p, r⟩
          · simp only [scanSub, hpre, if_true, hsplit]
            rw [ih f2 rest (by omega) (by omega)]
          · have hr : r.length ≤ rest.length := by
              have := findLazyClose_rest_len hsplit
              simp only [List.length_drop, List.length_cons] at this
              omega
            simp only [scanSub, hpre, if_true, hsplit]
            rw [ih f2 r (by omega) (by omega)]
        · simp only [scanSub, hpre, Bool.false_eq_true, if_false]
          rw [ih f2 rest (by omega) (by omega)]

theorem findLazyClose_exact (c0 : Char) (cd' : List Char) :
    ∀ (x rest : List Char), c0 ∉ x → '\n' ∉ x →
      findLazyClose (c0 :: cd') (x ++ c0 :: (cd' ++ rest)) = some (x, rest) := by
  intro x
  induction x with
  | nil =>
    intro rest _ _
    show findLazyClose (c0 :: cd') (c0 :: (cd' ++ rest)) = some ([], rest)
    have hpre : (c0 :: cd').isPrefixOf (c0 :: (cd' ++ rest)) = true := by
      have := isPrefixOf_self_append (c0 :: cd') rest
      rwa [List.cons_append] at this
    rw [findLazyClose, if_pos hpre]
    have hdrop : (c0 :: (cd' ++ rest)).drop (c0 :: cd').length = rest := by
      have := List.drop_left (c0 :: cd') rest
      rwa [List.cons_append] at this
    rw [hdrop]
  | cons a x' ih =>
    intro rest hmem hnl
    have ha : c0 ≠ a := fun h => hmem (h ▸ List.mem_cons_self a x')
    have hanl : a ≠ '\n' := fun h => hnl (h ▸ List.mem_cons_self a x')
    show findLazyClose (c0 :: cd') (a :: (x' ++ c0 :: (cd' ++ rest))) = _
    rw [findLazyClose]
    rw [if_neg (by simp [isPrefixOf_cons_ne ha]), if_neg hanl]
    rw [ih rest (fun h => hmem (List.mem_cons_of_mem a h))
      (fun h => hnl (List.mem_cons_of_mem a h))]

theorem reSubLazy_cons_match (o : Char) (od : List Char) (c0 : Char)
    (cd' : List Char) (repl : List Char → List Char) (x rest : List Char)
    (hc : c0 ∉ x) (hn : '\n' ∉ x) :
    reSubLazy o od (c0 :: cd') repl (o :: (od ++ (x ++ c0 :: (cd' ++ rest))))
      = repl x ++ reSubLazy o od (c0 :: cd') repl rest := by
  have hpre : (o :: od).isPrefixOf (o :: (od ++ (x ++ c0 :: (cd' ++ rest)))) = true := by
    have := isPrefixOf_self_append (o :: od) (x ++ c0 :: (cd' ++ rest))
    rwa [List.cons_append] at this
  have hdrop : (o :: (od ++ (x ++ c0 :: (cd' ++ rest)))).drop (o :: od).length
      = x ++ c0 :: (cd' ++ rest) := by
    have := List.drop_left (o :: od) (x ++ c0 :: (cd' ++ rest))
    rwa [List.cons_append] at this
  have hclose := findLazyClose_exact c0 cd' x rest hc hn
  unfold reSubLazy
  rw [List.length_cons, scanSub, if_pos hpre, hdrop, hclose]
  show repl x ++ scanSub o od (c0 :: cd') repl
      (od ++ (x ++ c0 :: (cd' ++ rest))).length rest = _
  rw [scanSub_fuelIrrel o od (c0 :: cd') repl
    (od ++ (x ++ c0 :: (cd' ++ rest))).length rest.length rest
    (by simp [List.length_append]; omega) le_rfl]

theorem scanSub_noMatch (o : Char) (od cd : List Char)
    (repl : List Char → List Char) :
    ∀ fuel s, s.length ≤ fuel → hasMatch o od cd s = false →
      scanSub o od cd repl fuel s = s := by
  intro fuel
  induction fuel with
  | zero =>
    intro s h1 _
    have : s = [] := List.length_eq_zero.mp (Nat.le_zero.mp h1)
    subst this; rfl
  | succ fuel ih =>
    intro s h1 hm
    cases s with
    | nil => rfl
    | cons c rest =>
      simp only [hasMatch, Bool.or_eq_false_iff, Bool.and_eq_false_iff] at hm
      obtain ⟨hm1, hm2⟩ := hm
      simp only [List.length_cons] at h1
      rw [scanSub]
      by_cases hpre : (o :: od).isPrefixOf (c :: rest) = true
      · rw [if_pos hpre]
        rcases hm1 with hm1 | hm1
        · rw [hpre] at hm1; simp at hm1
        · rcases hsplit : findLazyClose cd ((c :: rest).drop (o :: od).length)
            with _ | ⟨p, r⟩
          · rw [ih rest (by omega) hm2]
          · rw [hsplit] at hm1; simp at hm1
      · rw [if_neg hpre, ih rest (by omega) hm2]

theorem reSubLazy_noMatch {o : Char} {od cd : List Char}
    (repl : List Char → List Char) {s : List Char}
    (h : hasMatch o od cd s = false) : reSubLazy o od cd repl s = s :=
  scanSub_noMatch o od cd repl s.length s le_rfl h

/- ### The four substitution rules, one match at the front -/

theorem subBold_match (x rest : List Char) (hc : '*' ∉ x) (hn : '\n' ∉ x) :
    subBold ("**".data ++ x ++ "**".data ++ rest)
      = "<b>".data ++ x ++ "</b>".data ++ subBold rest := by
  have := reSubLazy_cons_match '*' ['*'] '*' ['*']
    (fun p => "<b>".data ++ p ++ "</b>".data) x rest hc hn
  simpa [subBold] using this

theorem subEm_match (x rest : List Char) (hc : '_' ∉ x) (hn : '\n' ∉ x) :
    subEm ("__".data ++ x ++ "__".data ++ rest)
      = "<em>".data ++ x ++ "</em>".data ++ subEm rest := by
  have := reSubLazy_cons_match '_' ['_'] '_' ['_']
    (fun p => "<em>".data ++ p ++ "</em>".data) x rest hc hn
  simpa [subEm] using this

theorem subMd5_match (x rest : List Char) (hc : ']' ∉ x) (hn : '\n' ∉ x) :
    subMd5 ("[[".data ++ x ++ "]]".data ++ rest)
      = convert_to_md5 x ++ subMd5 rest := by
  have := reSubLazy_cons_match '[' ['['] ']' [']'] convert_to_md5 x rest hc hn
  simpa [subMd5] using this

theorem subParens_match (x rest : List Char) (hc : ')' ∉ x) (hn : '\n' ∉ x) :
    subParens ("((".data ++ x ++ "))".data ++ rest)
      = remove_c_from_text x ++ subParens rest := by
  have := reSubLazy_cons_match '(' ['('] ')' [')'] remove_c_from_text x rest hc hn
  simpa [subParens] using this

/- ### Heading-regex lemmas -/

theorem takeWhile_hashes (k : Nat) (rest : List Char)
    (h : rest.head? ≠ some '#') :
    (List.replicate k '#' ++ rest).takeWhile (fun c => c == '#')
      = List.replicate k '#' := by
  induction k with
  | zero =>
    cases rest with
    | nil => rfl
    | cons c t =>
      have : ¬(c == '#') = true := by
        simp only [beq_iff_eq]
        intro hc; exact h (by simp [hc])
      simp [List.takeWhile, this]
  | succ k ih =>
    simp only [List.replicate, List.cons_append, List.takeWhile]
    simpa using ih

theorem takeWhile_no_nl (l : List Char) (h : '\n' ∉ l) :
    l.takeWhile (fun c => decide (c ≠ '\n')) = l := by
  induction l with
  | nil => rfl
  | cons c t ih =>
    have hc : c ≠ '\n' := fun hcc => h (hcc ▸ List.mem_cons_self c t)
    have hd : decide (c ≠ '\n') = true := by simp [hc]
    simp only [List.takeWhile, hd]
    rw [ih (fun hm => h (List.mem_cons_of_mem c hm))]

theorem headingMatch_hit (k : Nat) (content : List Char)
    (h1 : 1 ≤ k) (h2 : k ≤ 6) (hn : '\n' ∉ content) :
    headingMatch (List.replicate k '#' ++ ' ' :: content) = some (k, content) := by
  unfold headingMatch
  rw [takeWhile_hashes k (' ' :: content) (by simp)]
  rw [List.length_replicate]
  have hdropk : (List.replicate k '#' ++ ' ' :: content).drop k = ' ' :: content := by
    have := List.drop_left (List.replicate k '#') (' ' :: content)
    rwa [List.length_replicate] at this
  have hdropk1 : (List.replicate k '#' ++ ' ' :: content).drop (k + 1) = content := by
    have : List.replicate k '#' ++ ' ' :: content
        = (List.replicate k '#' ++ [' ']) ++ content := by simp
    rw [this]
    have hl : (List.replicate k '#' ++ [' ']).length = k + 1 := by simp
    have := List.drop_left (List.replicate k '#' ++ [' ']) content
    rwa [hl] at this
  rw [if_pos (by rw [hdropk]; exact ⟨h1, h2, rfl⟩)]
  rw [hdropk1, takeWhile_no_nl content hn]

theorem headingMatch_miss_hashes (line rest : List Char) (k : Nat)
    (hline : line = List.replicate k '#' ++ rest)
    (hr : rest.head? ≠ some '#') (hmiss : k < 1 ∨ 6 < k ∨ rest.head? ≠ some ' ') :
    headingMatch line = none := by
  subst hline
  unfold headingMatch
  rw [takeWhile_hashes k rest hr, List.length_replicate]
  have hdropk : (List.replicate k '#' ++ rest).drop k = rest := by
    have := List.drop_left (List.replicate k '#') rest
    rwa [List.length_replicate] at this
  rw [if_neg]
  rw [hdropk]
  intro ⟨ha, hb, hc⟩
  rcases hmiss with h | h | h
  · omega
  · omega
  · exact h hc

theorem headingMatch_cons_ne {c : Char} (t : List Char) (h : c ≠ '#') :
    headingMatch (c :: t) = none := by
  have := headingMatch_miss_hashes (c :: t) (c :: t) 0 (by simp)
    (by simpa using h) (Or.inl (by omega))
  exact this

/- ### Branch lemmas for process_markdown_line -/

theorem process_ul (rest : List Char) :
    process_markdown_line ('-' :: ' ' :: rest)
      = .pair ("<li>".data ++ rest ++ "</li>".data) "ul".data := by
  unfold process_markdown_line
  rw [headingMatch_cons_ne (' ' :: rest) (by decide)]
  rw [if_pos (by simp [List.isPrefixOf])]
  rfl

theorem process_ol (rest : List Char) :
    process_markdown_line ('*' :: ' ' :: rest)
      = .pair ("<li>".data ++ rest ++ "</li>".data) "ol".data := by
  unfold process_markdown_line
  rw [headingMatch_cons_ne (' ' :: rest) (by decide)]
  rw [if_neg (by simp [List.isPrefixOf])]
  rw [if_pos (by simp [List.isPrefixOf])]
  rfl

theorem process_fallthrough (line : List Char)
    (h1 : headingMatch line = none)
    (h2 : "- ".data.isPrefixOf line = false)
    (h3 : "* ".data.isPrefixOf line = false) :
    process_markdown_line line = substPart line := by
  unfold process_markdown_line
  rw [h1]
  rw [if_neg (by simp [h2]), if_neg (by simp [h3])]

theorem process_heading (k : Nat) (content : List Char)
    (h1 : 1 ≤ k) (h2 : k ≤ 6) (hn : '\n' ∉ content) :
    process_markdown_line (List.replicate k '#' ++ ' ' :: content)
      = .str ("<h".data ++ (Nat.repr k).data ++ ">".data ++ content ++
              "</h".data ++ (Nat.repr k).data ++ ">".data) := by
  unfold process_markdown_line
  rw [headingMatch_hit k content h1 h2 hn]

/- ### Shape of an unpacked translator result -/

theorem cons_of_append_cons (l : List Char) (c : Char) (t : List Char) :
    ∃ c3 t3, l ++ c :: t = c3 :: t3 := by
  cases l with
  | nil => exact ⟨c, t, rfl⟩
  | cons a as => exact ⟨a, as ++ c :: t, rfl⟩

theorem unpack_shape (x : List Char) (h t : List Char)
    (hu : unpack (process_markdown_line x) = some (h, t)) :
    (t = "ul".data ∧ ∃ r, h = "<li>".data ++ r) ∨
    (t = "ol".data ∧ ∃ r, h = "<li>".data ++ r) ∨
    (t = "newline".data ∧ h = []) ∨
    (∃ a b, h = [a] ∧ t = [b]) := by
  rcases hm : headingMatch x with _ | ⟨n, content⟩
  · by_cases hul : "- ".data.isPrefixOf x = true
    · have hp : process_markdown_line x
          = .pair ("<li>".data ++ x.drop 2 ++ "</li>".data) "ul".data := by
        unfold process_markdown_line
        rw [hm, if_pos hul]
      rw [hp] at hu
      simp only [unpack, Option.some.injEq, Prod.mk.injEq] at hu
      exact Or.inl ⟨hu.2.symm, ⟨x.drop 2 ++ "</li>".data, by rw [← hu.1]; simp⟩⟩
    · by_cases hol : "* ".data.isPrefixOf x = true
      · have hp : process_markdown_line x
            = .pair ("<li>".data ++ x.drop 2 ++ "</li>".data) "ol".data := by
          unfold process_markdown_line
          rw [hm, if_neg hul, if_pos hol]
        rw [hp] at hu
        simp only [unpack, Option.some.injEq, Prod.mk.injEq] at hu
        exact Or.inr (Or.inl ⟨hu.2.symm, ⟨x.drop 2 ++ "</li>".data, by rw [← hu.1]; simp⟩⟩)
      · have hp : process_markdown_line x = substPart x :=
          process_fallthrough x hm
            (by simp only [Bool.not_eq_true] at hul; exact hul)
            (by simp only [Bool.not_eq_true] at hol; exact hol)
        rw [hp] at hu
        unfold substPart at hu
        by_cases hws : (applySubs x).all isPyWS = true
        · rw [if_pos hws] at hu
          simp only [unpack, Option.some.injEq, Prod.mk.injEq] at hu
          exact Or.inr (Or.inr (Or.inl ⟨hu.2.symm, hu.1.symm⟩))
        · rw [if_neg hws] at hu
          rcases hl : applySubs x with _ | ⟨a, t1⟩
          · rw [hl] at hu; simp [unpack] at hu
          · rcases t1 with _ | ⟨b, t2⟩
            · rw [hl] at hu; simp [unpack] at hu
            · rcases t2 with _ | ⟨c, t3⟩
              · rw [hl] at hu
                simp only [unpack, Option.some.injEq, Prod.mk.injEq] at hu
                exact Or.inr (Or.inr (Or.inr ⟨a, b, hu.1.symm, hu.2.symm⟩))
              · rw [hl] at hu; simp [unpack] at hu
  · obtain ⟨c3, t3, h3⟩ := cons_of_append_cons (Nat.repr n).data '>'
      (content ++ "</h".data ++ (Nat.repr n).data ++ ">".data)
    have hp : process_markdown_line x
        = .str ("<h".data ++ (Nat.repr n).data ++ ">".data ++ content ++
                "</h".data ++ (Nat.repr n).data ++ ">".data) := by
      unfold process_markdown_line
      rw [hm]
    rw [hp] at hu
    have hform : "<h".data ++ (Nat.repr n).data ++ ">".data ++ content ++
        "</h".data ++ (Nat.repr n).data ++ ">".data
        = '<' :: 'h' :: (c3 :: t3) := by
      rw [← h3]; simp
    rw [hform] at hu
    simp [unpack] at hu

/- ### Computation lemmas for the accumulator step -/

theorem stepEmit_ul_none (h : List Char) :
    stepEmit none h "ul".data = (["<ul>".data], some "ul".data) := rfl

theorem stepEmit_ul_ul (h : List Char) :
    stepEmit (some "ul".data) h "ul".data = ([], some "ul".data) := rfl

theorem stepEmit_ul_ol (h : List Char) :
    stepEmit (some "ol".data) h "ul".data
      = (["</ol>".data, "<ul>".data], some "ul".data) := rfl

theorem stepEmit_ol_none (h : List Char) :
    stepEmit none h "ol".data = (["<ol>".data], some "ol".data) := rfl

theorem stepEmit_ol_ol (h : List Char) :
    stepEmit (some "ol".data) h "ol".data = ([], some "ol".data) := rfl

theorem stepEmit_ol_ul (h : List Char) :
    stepEmit (some "ul".data) h "ol".data
      = (["</ul>".data, "<ol>".data], some "ol".data) := rfl

theorem closeEmit_none : closeEmit none = ([], none) := rfl

theorem closeEmit_ul : closeEmit (some "ul".data) = (["</ul>".data], none) := rfl

theorem closeEmit_ol : closeEmit (some "ol".data) = (["</ol>".data], none) := rfl

theorem stepEmit_other (lt : Option (List Char)) (h t : List Char)
    (h1 : t ≠ "ul".data) (h2 : t ≠ "ol".data) (h3 : t ≠ "newline".data) :
    stepEmit lt h t = ((closeEmit lt).1 ++ [h], (closeEmit lt).2) := by
  unfold stepEmit
  rw [if_neg h1, if_neg h2, if_neg h3]

theorem stepEmit_newline (lt : Option (List Char)) (h : List Char) :
    stepEmit lt h "newline".data
      = ((closeEmit lt).1 ++ ["<p>".data], (closeEmit lt).2) := by
  unfold stepEmit
  rw [if_neg (by decide), if_neg (by decide), if_pos rfl]

/- ### Computation lemmas for the bracketing checker -/

theorem checkBrack_openUl (b : Option (List Char)) (ls : List (List Char)) :
    checkBrack b ("<ul>".data :: ls)
      = (decide (b = none) && checkBrack (some "ul".data) ls) := by
  rw [checkBrack, if_pos rfl]

theorem checkBrack_closeUl (b : Option (List Char)) (ls : List (List Char)) :
    checkBrack b ("</ul>".data :: ls)
      = (decide (b = some "ul".data) && checkBrack none ls) := by
  rw [checkBrack, if_neg (by decide), if_pos rfl]

theorem checkBrack_openOl (b : Option (List Char)) (ls : List (List Char)) :
    checkBrack b ("<ol>".data :: ls)
      = (decide (b = none) && checkBrack (some "ol".data) ls) := by
  rw [checkBrack, if_neg (by decide), if_neg (by decide), if_pos rfl]

theorem checkBrack_closeOl (b : Option (List Char)) (ls : List (List Char)) :
    checkBrack b ("</ol>".data :: ls)
      = (decide (b = some "ol".data) && checkBrack none ls) := by
  rw [checkBrack, if_neg (by decide), if_neg (by decide), if_neg (by decide),
    if_pos rfl]

theorem checkBrack_p (b : Option (List Char)) (ls : List (List Char)) :
    checkBrack b ("<p>".data :: ls) = (decide (b = none) && checkBrack b ls) := by
  rw [checkBrack, if_neg (by decide), if_neg (by decide), if_neg (by decide),
    if_neg (by decide), if_neg (by decide)]

theorem checkBrack_single (b : Option (List Char)) (a : Char)
    (ls : List (List Char)) :
    checkBrack b ([a] :: ls) = (decide (b = none) && checkBrack b ls) := by
  have e1 : [a] ≠ "<ul>".data := by
    intro heq; have := congrArg List.length heq; simp at this
  have e2 : [a] ≠ "</ul>".data := by
    intro heq; have := congrArg List.length heq; simp at this
  have e3 : [a] ≠ "<ol>".data := by
    intro heq; have := congrArg List.length heq; simp at this
  have e4 : [a] ≠ "</ol>".data := by
    intro heq; have := congrArg List.length heq; simp at this
  have hli : ("<li>".data).isPrefixOf [a] = false := by
    simp [List.isPrefixOf]
  rw [checkBrack, if_neg e1, if_neg e2, if_neg e3, if_neg e4,
    if_neg (by rw [hli]; simp)]

theorem checkBrack_li (b : Option (List Char)) (l : List Char)
    (ls : List (List Char)) (hpre : ("<li>".data).isPrefixOf l = true) :
    checkBrack b (l :: ls) = checkBrack b ls := by
  have h1 : l ≠ "<ul>".data := by rintro rfl; revert hpre; decide
  have h2 : l ≠ "</ul>".data := by rintro rfl; revert hpre; decide
  have h3 : l ≠ "<ol>".data := by rintro rfl; revert hpre; decide
  have h4 : l ≠ "</ol>".data := by rintro rfl; revert hpre; decide
  rw [checkBrack, if_neg h1, if_neg h2, if_neg h3, if_neg h4,
    if_pos (by rw [hpre])]

/- ### Format of the MD5 hex digest -/

theorem hexDigit_mem_hexChars :
    ∀ n, n < 16 → hexDigit n ∈ "0123456789abcdef".data := by decide

theorem byteHex_mem_hexChars (b : Nat) :
    ∀ ch ∈ byteHex b, ch ∈ "0123456789abcdef".data := by
  intro ch hch
  rcases List.mem_pair.mp hch with rfl | rfl
  · exact hexDigit_mem_hexChars _ (Nat.mod_lt _ (by norm_num))
  · exact hexDigit_mem_hexChars _ (Nat.mod_lt _ (by norm_num))

theorem wordHexLE_mem_hexChars (w : Nat) :
    ∀ ch ∈ wordHexLE w, ch ∈ "0123456789abcdef".data := by
  intro ch hch
  unfold wordHexLE at hch
  rcases List.mem_append.mp hch with h | h
  · rcases List.mem_append.mp h with h | h
    · rcases List.mem_append.mp h with h | h
      · exact byteHex_mem_hexChars _ ch h
      · exact byteHex_mem_hexChars _ ch h
    · exact byteHex_mem_hexChars _ ch h
  · exact byteHex_mem_hexChars _ ch h

theorem convert_to_md5_length (x : List Char) :
    (convert_to_md5 x).length = 32 := by
  unfold convert_to_md5
  generalize md5State (x.foldr (fun ch acc => utf8Bytes ch ++ acc) []) = st
  rcases st with ⟨a, b, c, d⟩
  show (wordHexLE a ++ wordHexLE b ++ wordHexLE c ++ wordHexLE d).length = 32
  simp [wordHexLE, byteHex]

theorem convert_to_md5_hex (x : List Char) :
    ∀ ch ∈ convert_to_md5 x, ch ∈ "0123456789abcdef".data := by
  intro ch hch
  unfold convert_to_md5 at hch
  generalize md5State (x.foldr (fun ch acc => utf8Bytes ch ++ acc) []) = st
    at hch
  rcases st with ⟨a, b, c, d⟩
  have hch2 : ch ∈ wordHexLE a ++ wordHexLE b ++ wordHexLE c ++ wordHexLE d :=
    hch
  rcases List.mem_append.mp hch2 with h | h
  · rcases List.mem_append.mp h with h | h
    · rcases List.mem_append.mp h with h | h
      · exact wordHexLE_mem_hexChars _ ch h
      · exact wordHexLE_mem_hexChars _ ch h
    · exact wordHexLE_mem_hexChars _ ch h
  · exact wordHexLE_mem_hexChars _ ch h

/- ### Fixpoint of the substitutions on token-free lines -/

theorem applySubs_fix (line : List Char)
    (h1 : hasMatch '*' ['*'] ['*', '*'] line = false)
    (h2 : hasMatch '_' ['_'] ['_', '_'] line = false)
    (h3 : hasMatch '[' ['['] [']', ']'] line = false)
    (h4 : hasMatch '(' ['('] [')', ')'] line = false) :
    applySubs line = line := by
  unfold applySubs subBold subEm subMd5 subParens
  rw [reSubLazy_noMatch _ h1, reSubLazy_noMatch _ h2, reSubLazy_noMatch _ h3,
    reSubLazy_noMatch _ h4]

/- ### The bracketing invariant of the accumulator loop -/

theorem runLoop_brack : ∀ (ls : List (List Char)) (lt : Option (List Char)),
    (lt = none ∨ lt = some "ul".data ∨ lt = some "ol".data) →
    ∀ out, runLoop lt ls = some out → checkBrack lt out = true := by
  intro ls
  induction ls with
  | nil =>
    intro lt hlt out hout
    rcases hlt with rfl | rfl | rfl <;>
      simp only [runLoop, Option.some.injEq] at hout <;>
      rw [← hout] <;> decide
  | cons l ls ih =>
    intro lt hlt out hout
    rcases hp : unpack (process_markdown_line (rstrip l)) with _ | ⟨h, t⟩
    · rw [runLoop, hp] at hout; simp at hout
    · rw [runLoop, hp] at hout
      have hout2 : (match runLoop (stepEmit lt h t).2 ls with
          | some out2 => some ((stepEmit lt h t).1 ++ out2)
          | none => none) = some out := hout
      rcases hrest : runLoop (stepEmit lt h t).2 ls with _ | out'
      · rw [hrest] at hout2; simp at hout2
      · rw [hrest] at hout2
        simp only [Option.some.injEq] at hout2
        subst hout2
        rcases unpack_shape (rstrip l) h t hp with
          ⟨rfl, r, rfl⟩ | ⟨rfl, r, rfl⟩ | ⟨rfl, rfl⟩ | ⟨a, b, rfl, rfl⟩
        · -- tag "ul": the block is opened or switched, nothing else emitted
          have hpre : ("<li>".data).isPrefixOf ("<li>".data ++ r) = true :=
            isPrefixOf_self_append _ _
          rcases hlt with rfl | rfl | rfl
          · rw [stepEmit_ul_none] at hrest ⊢
            rw [List.cons_append, List.nil_append, checkBrack_openUl]
            simpa using ih _ (Or.inr (Or.inl rfl)) out' hrest
          · rw [stepEmit_ul_ul] at hrest ⊢
            rw [List.nil_append]
            exact ih _ (Or.inr (Or.inl rfl)) out' hrest
          · rw [stepEmit_ul_ol] at hrest ⊢
            rw [List.cons_append, List.cons_append, List.nil_append,
              checkBrack_closeOl, checkBrack_openUl]
            simpa using ih _ (Or.inr (Or.inl rfl)) out' hrest
        · -- tag "ol": symmetric
          rcases hlt with rfl | rfl | rfl
          · rw [stepEmit_ol_none] at hrest ⊢
            rw [List.cons_append, List.nil_append, checkBrack_openOl]
            simpa using ih _ (Or.inr (Or.inr rfl)) out' hrest
          · rw [stepEmit_ol_ul] at hrest ⊢
            rw [List.cons_append, List.cons_append, List.nil_append,
              checkBrack_closeUl, checkBrack_openOl]
            simpa using ih _ (Or.inr (Or.inr rfl)) out' hrest
          · rw [stepEmit_ol_ol] at hrest ⊢
            rw [List.nil_append]
            exact ih _ (Or.inr (Or.inr rfl)) out' hrest
        · -- tag "newline": close any open block, then a paragraph break
          rcases hlt with rfl | rfl | rfl
          · rw [stepEmit_newline, closeEmit_none] at hrest ⊢
            simp only [List.cons_append, List.nil_append]
            rw [checkBrack_p]
            simpa using ih _ (Or.inl rfl) out' hrest
          · rw [stepEmit_newline, closeEmit_ul] at hrest ⊢
            simp only [List.cons_append, List.nil_append]
            rw [checkBrack_closeUl, checkBrack_p]
            simpa using ih _ (Or.inl rfl) out' hrest
          · rw [stepEmit_newline, closeEmit_ol] at hrest ⊢
            simp only [List.cons_append, List.nil_append]
            rw [checkBrack_closeOl, checkBrack_p]
            simpa using ih _ (Or.inl rfl) out' hrest
        · -- a one-character tag: close any open block, emit the fragment
          have hne1 : [b] ≠ "ul".data := by
            intro heq; have := congrArg List.length heq; simp at this
          have hne2 : [b] ≠ "ol".data := by
            intro heq; have := congrArg List.length heq; simp at this
          have hne3 : [b] ≠ "newline".data := by
            intro heq; have := congrArg List.length heq; simp at this
          rcases hlt with rfl | rfl | rfl
          · rw [stepEmit_other none [a] [b] hne1 hne2 hne3, closeEmit_none]
              at hrest ⊢
            simp only [List.cons_append, List.nil_append]
            rw [checkBrack_single]
            simpa using ih _ (Or.inl rfl) out' hrest
          · rw [stepEmit_other _ [a] [b] hne1 hne2 hne3, closeEmit_ul]
              at hrest ⊢
            simp only [List.cons_append, List.nil_append]
            rw [checkBrack_closeUl, checkBrack_single]
            simpa using ih _ (Or.inl rfl) out' hrest
          · rw [stepEmit_other _ [a] [b] hne1 hne2 hne3, closeEmit_ol]
              at hrest ⊢
            simp only [List.cons_append, List.nil_append]
            rw [checkBrack_closeOl, checkBrack_single]
            simpa using ih _ (Or.inl rfl) out' hrest

/-!
## Claim theorems
-/

/-- C1: the claim that the Line Translator and the Block Accumulator never
fail is refuted by the code: for a heading line the translator returns a
bare string of length other than two, and the driver loop's tuple
unpacking raises ValueError, modelled here as `mainOutput` returning
`none` on the single-line input "# Title". -/
theorem c1_driver_raises_on_heading :
    mainOutput ["# Title".data] = none := by decide

/-- C2: on the claim's exact five-line input the pipeline does not produce
the seven claimed output lines; it raises at the very first line
("# Title", whose translated bare string of fourteen characters cannot be
unpacked into a fragment and a tag), so the whole conversion is `none`. -/
theorem c2_pipeline_raises_on_claimed_input :
    mainOutput ["# Title".data, "- one".data, "- two".data,
      "Normal **text**.".data, "".data] = none := by decide

/-- C3: the claim that a list-item fragment is appended inside its list
block is refuted: the loop's "ul"/"ol" branches open and switch blocks
but never append the fragment, so the single list line "- one" produces
only the block markers and the fragment "<li>one</li>" is discarded. -/
theorem c3_list_fragment_dropped :
    mainOutput ["- one".data] = some ["<ul>".data, "</ul>".data] := by decide

/-- C4: heading lines with one to six hash characters followed by exactly
one space translate to the `<hN>content</hN>` fragment (returned as a bare
string, the no-tag paragraph form); a run of seven or more hashes, or a
hash run not followed by a space, does not match the heading rule and
falls through to the substitution part. -/
theorem c4_heading_rule :
    (∀ (k : Nat) (content : List Char), 1 ≤ k → k ≤ 6 → '
' ∉ content →
      process_markdown_line (List.replicate k '#' ++ ' ' :: content)
        = .str ("<h".data ++ (Nat.repr k).data ++ ">".data ++ content ++
                "</h".data ++ (Nat.repr k).data ++ ">".data))
    ∧ (∀ (k : Nat) (content : List Char), 7 ≤ k →
        process_markdown_line (List.replicate k '#' ++ ' ' :: content)
          = substPart (List.replicate k '#' ++ ' ' :: content))
    ∧ (∀ (k : Nat) (rest : List Char), 1 ≤ k → rest.head? ≠ some ' ' →
        rest.head? ≠ some '#' →
        process_markdown_line (List.replicate k '#' ++ rest)
          = substPart (List.replicate k '#' ++ rest)) := by
  refine ⟨fun k content h1 h2 hn => process_heading k content h1 h2 hn,
    fun k content h7 => ?_, fun k rest h1 hsp hhash => ?_⟩
  · obtain ⟨k', rfl⟩ : ∃ k', k = k' + 1 := ⟨k - 1, by omega⟩
    have hm : headingMatch (List.replicate (k' + 1) '#' ++ ' ' :: content)
        = none :=
      headingMatch_miss_hashes _ (' ' :: content) (k' + 1) rfl (by simp)
        (Or.inr (Or.inl (by omega)))
    have hcons : List.replicate (k' + 1) '#' ++ ' ' :: content
        = '#' :: (List.replicate k' '#' ++ ' ' :: content) := by
      simp [List.replicate]
    refine process_fallthrough _ hm ?_ ?_
    · rw [hcons]; exact isPrefixOf_cons_ne (by decide)
    · rw [hcons]; exact isPrefixOf_cons_ne (by decide)
  · obtain ⟨k', rfl⟩ : ∃ k', k = k' + 1 := ⟨k - 1, by omega⟩
    have hm : headingMatch (List.replicate (k' + 1) '#' ++ rest) = none :=
      headingMatch_miss_hashes _ rest (k' + 1) rfl hhash
        (Or.inr (Or.inr hsp))
    have hcons : List.replicate (k' + 1) '#' ++ rest
        = '#' :: (List.replicate k' '#' ++ rest) := by
      simp [List.replicate]
    refine process_fallthrough _ hm ?_ ?_
    · rw [hcons]; exact isPrefixOf_cons_ne (by decide)
    · rw [hcons]; exact isPrefixOf_cons_ne (by decide)

/-- C4 witness: the heading rule at level 1, a seven-hash line, and a
three-hash line with no space after the hash run. -/
theorem c4_heading_rule_witness :
    process_markdown_line (List.replicate 1 '#' ++ ' ' :: "Title".data)
      = .str ("<h".data ++ (Nat.repr 1).data ++ ">".data ++ "Title".data ++
              "</h".data ++ (Nat.repr 1).data ++ ">".data)
    ∧ process_markdown_line (List.replicate 7 '#' ++ ' ' :: "x".data)
        = substPart (List.replicate 7 '#' ++ ' ' :: "x".data)
    ∧ process_markdown_line (List.replicate 3 '#' ++ "x y".data)
        = substPart (List.replicate 3 '#' ++ "x y".data) :=
  ⟨c4_heading_rule.1 1 "Title".data (by decide) (by decide) (by decide),
   c4_heading_rule.2.1 7 "x".data (by decide),
   c4_heading_rule.2.2 3 "x y".data (by decide) (by decide) (by decide)⟩

/-- C5: a line starting with dash-space becomes the `<li>` fragment (the
line with its first two characters removed) tagged "ul", and a line
starting with star-space becomes the same fragment tagged "ol" — the
source's inverted naming. -/
theorem c5_list_rules :
    (∀ rest : List Char, process_markdown_line ('-' :: ' ' :: rest)
      = .pair ("<li>".data ++ rest ++ "</li>".data) "ul".data)
    ∧ (∀ rest : List Char, process_markdown_line ('*' :: ' ' :: rest)
      = .pair ("<li>".data ++ rest ++ "</li>".data) "ol".data) :=
  ⟨process_ul, process_ol⟩

/-- C6: a non-heading, non-list line whose substituted text is
whitespace-only translates to the empty fragment tagged "newline", and on
that tag the accumulator closes any open list block and emits a paragraph
break; otherwise the substituted text itself is returned (the bare-string,
no-tag form). -/
theorem c6_blank_and_plain_lines : ∀ line : List Char,
    headingMatch line = none →
    "- ".data.isPrefixOf line = false →
    "* ".data.isPrefixOf line = false →
    ((applySubs line).all isPyWS = true →
        process_markdown_line line = .pair [] "newline".data)
    ∧ ((applySubs line).all isPyWS = false →
        process_markdown_line line = .str (applySubs line))
    ∧ (∀ lt : Option (List Char),
        lt = none ∨ lt = some "ul".data ∨ lt = some "ol".data →
        stepEmit lt [] "newline".data
          = ((closeEmit lt).1 ++ ["<p>".data], none)) := by
  intro line hm hul hol
  have hp := process_fallthrough line hm hul hol
  refine ⟨fun hws => ?_, fun hws => ?_, fun lt hlt => ?_⟩
  · rw [hp]; unfold substPart; rw [if_pos hws]
  · rw [hp]; unfold substPart; rw [if_neg (by rw [hws]; simp)]
  · rw [stepEmit_newline]
    rcases hlt with rfl | rfl | rfl
    · rw [closeEmit_none]
    · rw [closeEmit_ul]
    · rw [closeEmit_ol]

/-- C6 witness: a whitespace-only line, a plain text line, and the
accumulator step on the "newline" tag with an open "ul" block. -/
theorem c6_blank_and_plain_lines_witness :
    process_markdown_line "   ".data = .pair [] "newline".data
    ∧ process_markdown_line "hello".data = .str (applySubs "hello".data)
    ∧ stepEmit (some "ul".data) [] "newline".data
        = ((closeEmit (some "ul".data)).1 ++ ["<p>".data], none) :=
  ⟨(c6_blank_and_plain_lines "   ".data (by decide) (by decide)
      (by decide)).1 (by decide),
   (c6_blank_and_plain_lines "hello".data (by decide) (by decide)
      (by decide)).2.1 (by decide),
   (c6_blank_and_plain_lines "hello".data (by decide) (by decide)
      (by decide)).2.2 (some "ul".data) (Or.inr (Or.inl rfl))⟩

/-- C7: fall-through lines go through exactly the four substitutions in
source order (bold, emphasis, MD5, character removal); each rule replaces
a leftmost shortest-span match and continues after it; the MD5 rule yields
a 32-character lowercase hex digest; "((coconut))" yields "oonut"; the
concrete digests show the MD5 rule operating on the already
bold-substituted text. -/
theorem c7_substitution_rules :
    (∀ line : List Char, headingMatch line = none →
      "- ".data.isPrefixOf line = false →
      "* ".data.isPrefixOf line = false →
      process_markdown_line line = substPart line
      ∧ applySubs line = subParens (subMd5 (subEm (subBold line))))
    ∧ (∀ x rest : List Char, '*' ∉ x → '
' ∉ x →
        subBold ("**".data ++ x ++ "**".data ++ rest)
          = "<b>".data ++ x ++ "</b>".data ++ subBold rest)
    ∧ (∀ x rest : List Char, '_' ∉ x → '
' ∉ x →
        subEm ("__".data ++ x ++ "__".data ++ rest)
          = "<em>".data ++ x ++ "</em>".data ++ subEm rest)
    ∧ (∀ x rest : List Char, ']' ∉ x → '
' ∉ x →
        subMd5 ("[[".data ++ x ++ "]]".data ++ rest)
          = convert_to_md5 x ++ subMd5 rest)
    ∧ (∀ x rest : List Char, ')' ∉ x → '
' ∉ x →
        subParens ("((".data ++ x ++ "))".data ++ rest)
          = remove_c_from_text x ++ subParens rest)
    ∧ (∀ x : List Char, (convert_to_md5 x).length = 32
        ∧ ∀ ch ∈ convert_to_md5 x, ch ∈ "0123456789abcdef".data)
    ∧ remove_c_from_text "coconut".data = "oonut".data
    ∧ process_markdown_line "[[X]]".data
        = .str "02129bb861061d1a052c592e2dc6b383".data
    ∧ process_markdown_line "[[**a**]]".data
        = .str "d0d0b371e07faa35478d8dde673a8cc5".data := by
  refine ⟨fun line hm hul hol =>
      ⟨process_fallthrough line hm hul hol, rfl⟩,
    subBold_match, subEm_match, subMd5_match, subParens_match,
    fun x => ⟨convert_to_md5_length x, convert_to_md5_hex x⟩,
    by decide, by decide, by decide⟩

/-- C7 witness: one concrete leftmost match for each of the four rules. -/
theorem c7_substitution_rules_witness :
    subBold ("**".data ++ "bold".data ++ "**".data ++ " tail".data)
      = "<b>".data ++ "bold".data ++ "</b>".data ++ subBold " tail".data
    ∧ subEm ("__".data ++ "em".data ++ "__".data ++ [])
        = "<em>".data ++ "em".data ++ "</em>".data ++ subEm []
    ∧ subMd5 ("[[".data ++ "X".data ++ "]]".data ++ [])
        = convert_to_md5 "X".data ++ subMd5 []
    ∧ subParens ("((".data ++ "coconut".data ++ "))".data ++ [])
        = remove_c_from_text "coconut".data ++ subParens []
    ∧ process_markdown_line "plain".data = substPart "plain".data :=
  ⟨c7_substitution_rules.2.1 "bold".data " tail".data (by decide) (by decide),
   c7_substitution_rules.2.2.1 "em".data [] (by decide) (by decide),
   c7_substitution_rules.2.2.2.1 "X".data [] (by decide) (by decide),
   c7_substitution_rules.2.2.2.2.1 "coconut".data [] (by decide) (by decide),
   (c7_substitution_rules.1 "plain".data (by decide) (by decide)
      (by decide)).1⟩

/-- C8: every successfully emitted output sequence is correctly
bracketed: at most one list block is open at a time, a block is closed
before the other type opens and before any non-list line, and at end of
input. -/
theorem c8_output_well_bracketed :
    ∀ (lines : List (List Char)) (out : List (List Char)),
      mainOutput lines = some out → checkBrack none out = true :=
  fun lines out h => runLoop_brack lines none (Or.inl rfl) out h

/-- C8 witness: a run with a ul block, an ol block, a paragraph break and
a (two-character) plain line. -/
theorem c8_output_well_bracketed_witness :
    mainOutput ["- a".data, "* b".data, "".data, "hi".data]
      = some ["<ul>".data, "</ul>".data, "<ol>".data, "</ol>".data,
              "<p>".data, ['h']]
    ∧ checkBrack none ["<ul>".data, "</ul>".data, "<ol>".data, "</ol>".data,
        "<p>".data, ['h']] = true :=
  ⟨by decide,
   c8_output_well_bracketed ["- a".data, "* b".data, "".data, "hi".data]
     ["<ul>".data, "</ul>".data, "<ol>".data, "</ol>".data, "<p>".data,
      ['h']] (by decide)⟩

/-- C9: the translator is idempotent on token-free lines: a line with no
heading match, no list marker, no match of any of the four substitution
patterns and not whitespace-only is returned unchanged, and running the
translator on that output returns it unchanged again. -/
theorem c9_idempotent_on_converted : ∀ line : List Char,
    tokenFree line = true →
    process_markdown_line line = .str line
    ∧ ∀ out : List Char, process_markdown_line line = .str out →
        process_markdown_line out = .str out := by
  intro line htf
  unfold tokenFree at htf
  simp only [Bool.and_eq_true, Bool.not_eq_true', Option.isNone_iff_eq_none]
    at htf
  obtain ⟨⟨⟨⟨⟨⟨⟨hm, hul⟩, hol⟩, h1⟩, h2⟩, h3⟩, h4⟩, hws⟩ := htf
  have hfix := applySubs_fix line h1 h2 h3 h4
  have hp : process_markdown_line line = .str line := by
    rw [process_fallthrough line hm hul hol]
    unfold substPart
    rw [hfix, if_neg (by rw [hws]; simp)]
  refine ⟨hp, fun out hout => ?_⟩
  rw [hp] at hout
  obtain rfl : line = out := by
    have := PyRet.str.injEq line out ▸ hout
    simpa using this
  exact hp

/-- C9 witness: an already-converted HTML-looking line. -/
theorem c9_idempotent_on_converted_witness :
    process_markdown_line "<h1>Title</h1>".data = .str "<h1>Title</h1>".data :=
  (c9_idempotent_on_converted "<h1>Title</h1>".data (by decide)).1

/-- C10: a fall-through line whose substituted text has exactly two
characters (and is not whitespace-only) unpacks into the first character
as the fragment and the second as the tag; the one-character tag matches
no block tag, so the driver closes any open block and appends only the
first character — the second character is consumed and never emitted. -/
theorem c10_two_char_line_split : ∀ (line : List Char) (a b : Char)
    (lt : Option (List Char)),
    headingMatch (rstrip line) = none →
    "- ".data.isPrefixOf (rstrip line) = false →
    "* ".data.isPrefixOf (rstrip line) = false →
    applySubs (rstrip line) = [a, b] →
    [a, b].all isPyWS = false →
    lt = none ∨ lt = some "ul".data ∨ lt = some "ol".data →
    unpack (process_markdown_line (rstrip line)) = some ([a], [b])
    ∧ stepEmit lt [a] [b] = ((closeEmit lt).1 ++ [[a]], none) := by
  intro line a b lt hm hul hol hsub hws hlt
  have hp : process_markdown_line (rstrip line) = .str [a, b] := by
    rw [process_fallthrough _ hm hul hol]
    unfold substPart
    rw [hsub, if_neg (by rw [hws]; simp)]
  have hne1 : [b] ≠ "ul".data := by
    intro heq; have := congrArg List.length heq; simp at this
  have hne2 : [b] ≠ "ol".data := by
    intro heq; have := congrArg List.length heq; simp at this
  have hne3 : [b] ≠ "newline".data := by
    intro heq; have := congrArg List.length heq; simp at this
  refine ⟨by rw [hp]; rfl, ?_⟩
  rw [stepEmit_other lt [a] [b] hne1 hne2 hne3]
  rcases hlt with rfl | rfl | rfl
  · rw [closeEmit_none]
  · rw [closeEmit_ul]
  · rw [closeEmit_ol]

/-- C10 witness: the line "hi" with an open "ul" block: only 'h' is
emitted (after the closing tag), and 'i' becomes the tag and is
consumed. -/
theorem c10_two_char_line_split_witness :
    unpack (process_markdown_line (rstrip "hi".data)) = some (['h'], ['i'])
    ∧ stepEmit (some "ul".data) ['h'] ['i']
        = ((closeEmit (some "ul".data)).1 ++ [['h']], none) :=
  c10_two_char_line_split "hi".data 'h' 'i' (some "ul".data) (by decide)
    (by decide) (by decide) (by decide) (by decide) (Or.inr (Or.inl rfl))

end Md2Html
